import Mathlib

/-!
Verification development for the spectral-solver core (dedalus):
shallow embedding of the pencil-assembly, field-layout and symbolic-operator
code, with theorems settling the specification's claims about it.
-/

namespace Dedalus

/-! ## PencilSet striding (data/pencil.py)

`PencilSet.__init__` allocates a buffer whose last axis is the per-field
coefficient extent times the number of fields.  `get_system` copies field `i`
into the strided slice `data[..., i::n_fields]`; `set_system` copies it back
out of the same slice.  We model the buffer as a function of a (flattened)
transverse index `t` and a last-axis column `c`, and a numpy strided-slice
assignment `dst[..., start::stride] = src` pointwise. -/

/-- numpy strided-slice assignment `dst[..., start::stride] = src`:
column `c` is written iff `c = start + k * stride` for some `k`, receiving
`src[..., k]`. -/
def write_strided (dst : ℕ → ℕ → ℚ) (start stride : ℕ) (src : ℕ → ℕ → ℚ) :
    ℕ → ℕ → ℚ :=
  fun t c =>
    if start ≤ c ∧ (c - start) % stride = 0 then src t ((c - start) / stride)
    else dst t c

/-- `PencilSet.get_system`: for each field index `i < n_fields`, copy the
field's coefficient data into the buffer slice `data[..., i::n_fields]`
(source: `start = i; stride = system.n_fields`). -/
def get_system (n_fields : ℕ) (fields : ℕ → ℕ → ℕ → ℚ) (buf : ℕ → ℕ → ℚ) :
    ℕ → ℕ → ℚ :=
  (List.range n_fields).foldl (fun dst i => write_strided dst i n_fields (fields i)) buf

/-- `PencilSet.set_system`: field `i` reads its data back from the buffer slice
`data[..., i::n_fields]`; entry `k` of that slice is buffer column `i + k * n_fields`. -/
def set_system (n_fields : ℕ) (buf : ℕ → ℕ → ℚ) : ℕ → ℕ → ℕ → ℚ :=
  fun i t k => buf t (i + k * n_fields)

lemma write_strided_hit (dst : ℕ → ℕ → ℚ) (i F : ℕ) (src : ℕ → ℕ → ℚ)
    (t c : ℕ) (hiF : i < F) (hc : c % F = i) :
    write_strided dst i F src t c = src t (c / F) := by
  have hle : i ≤ c := hc ▸ Nat.mod_le c F
  have hsub : c - i = F * (c / F) := by
    conv_lhs => rw [← Nat.div_add_mod c F, hc]
    omega
  have hmod : (c - i) % F = 0 := by
    rw [hsub]; exact Nat.mul_mod_right F _
  have hdiv : (c - i) / F = c / F := by
    rw [hsub]; exact Nat.mul_div_cancel_left _ (by omega)
  simp [write_strided, hle, hmod, hdiv]

lemma write_strided_miss (dst : ℕ → ℕ → ℚ) (i F : ℕ) (src : ℕ → ℕ → ℚ)
    (t c : ℕ) (hiF : i < F) (hc : c % F ≠ i) :
    write_strided dst i F src t c = dst t c := by
  unfold write_strided
  rw [if_neg]
  rintro ⟨hle, hmod⟩
  have hdvd : F ∣ (c - i) := Nat.dvd_of_mod_eq_zero hmod
  obtain ⟨k, hk⟩ := hdvd
  have : c = i + F * k := by omega
  subst this
  apply hc
  rw [Nat.add_mul_mod_self_left]
  exact Nat.mod_eq_of_lt hiF

/-- Closed form for the `get_system` fold truncated to the first `m` fields:
column `c` holds field `c % F`'s entry `c / F` once field `c % F` has been
copied, else the original buffer value. -/
lemma get_system_partial (F : ℕ) (fields : ℕ → ℕ → ℕ → ℚ) (buf : ℕ → ℕ → ℚ) :
    ∀ m, m ≤ F → ∀ t c,
      (List.range m).foldl (fun dst i => write_strided dst i F (fields i)) buf t c
        = if c % F < m then fields (c % F) t (c / F) else buf t c := by
  intro m
  induction m with
  | zero => intro _ t c; simp
  | succ n ih =>
    intro hm t c
    rw [List.range_succ, List.foldl_append, List.foldl_cons, List.foldl_nil]
    by_cases hc : c % F = n
    · rw [write_strided_hit _ _ _ _ _ _ (by omega) hc, hc, if_pos (by omega)]
    · rw [write_strided_miss _ _ _ _ _ _ (by omega) hc, ih (by omega)]
      by_cases hlt : c % F < n
      · rw [if_pos hlt, if_pos (by omega)]
      · rw [if_neg hlt, if_neg (by omega)]

/-- Closed form for `get_system`: buffer column `c` holds entry `c / n_fields`
of field `c % n_fields`. -/
lemma get_system_apply (F : ℕ) (hF : 0 < F) (fields : ℕ → ℕ → ℕ → ℚ)
    (buf : ℕ → ℕ → ℚ) (t c : ℕ) :
    get_system F fields buf t c = fields (c % F) t (c / F) := by
  rw [get_system, get_system_partial F fields buf F le_rfl t c,
    if_pos (Nat.mod_lt c hF)]

lemma stride_mod_div (F i k : ℕ) (hi : i < F) :
    (i + k * F) % F = i ∧ (i + k * F) / F = k := by
  constructor
  · rw [Nat.add_mul_mod_self_right]; exact Nat.mod_eq_of_lt hi
  · rw [Nat.add_mul_div_right _ _ (by omega), Nat.div_eq_of_lt hi, Nat.zero_add]

/-- Example system for striding counterexamples/witnesses: per-field
coefficient extent 3 along the last axis, field `i`'s entry `k` is `10*i + k`. -/
def exFields : ℕ → ℕ → ℕ → ℚ :=
  fun i _ k => if k < 3 then 10 * i + k else 0

/-- Example initial buffer (allocated with zeros, as in `PencilSet.__init__`). -/
def exBuf : ℕ → ℕ → ℚ := fun _ _ => 0

/-- C4 counterexample: with 2 fields of per-field coefficient extent 3, the
claimed layout (stride = per-field extent) says buffer column `0 + 1 * 3 = 3`
holds field 0's entry 1; after `get_system` it actually holds field 1's
entry 1 (`11`), since the code strides by `n_fields = 2`. -/
theorem get_system_stride_extent_counterexample :
    get_system 2 exFields exBuf 0 (0 + 1 * 3) = 11 ∧ exFields 0 0 1 = 1 ∧
      (11 : ℚ) ≠ 1 := by
  refine ⟨?_, by norm_num [exFields], by norm_num⟩
  show (List.range 2).foldl _ exBuf 0 3 = 11
  norm_num [List.range_succ, write_strided, exFields, exBuf]

/-- C4 (amended): in a `PencilSet` over `n_fields` fields, field `i`'s
coefficient data occupies buffer columns `i, i + n_fields, i + 2*n_fields, …`
— the stride is the number of fields, not the per-field coefficient extent —
and these are exactly the columns `get_system` writes from field `i` and
`set_system` reads back into field `i`. -/
theorem get_system_round_robin (F i : ℕ) (hi : i < F)
    (fields : ℕ → ℕ → ℕ → ℚ) (buf : ℕ → ℕ → ℚ) (t k : ℕ) :
    get_system F fields buf t (i + k * F) = fields i t k ∧
      set_system F (get_system F fields buf) i t k
        = get_system F fields buf t (i + k * F) := by
  have hF : 0 < F := by omega
  obtain ⟨hmod, hdiv⟩ := stride_mod_div F i k hi
  exact ⟨by rw [get_system_apply F hF fields buf, hmod, hdiv], rfl⟩

theorem get_system_round_robin_witness :
    get_system 2 exFields exBuf 0 (1 + 2 * 2) = exFields 1 0 2 :=
  (get_system_round_robin 2 1 (by norm_num) exFields exBuf 0 2).1

/-- C7: copying an (unmodified, coefficient-space) system into the pencil
buffer with `get_system` and extracting it back with `set_system` returns
every field's coefficient data unchanged. -/
theorem get_set_system_roundtrip (F i : ℕ) (hi : i < F)
    (fields : ℕ → ℕ → ℕ → ℚ) (buf : ℕ → ℕ → ℚ) (t k : ℕ) :
    set_system F (get_system F fields buf) i t k = fields i t k := by
  have hF : 0 < F := by omega
  obtain ⟨hmod, hdiv⟩ := stride_mod_div F i k hi
  show get_system F fields buf t (i + k * F) = fields i t k
  rw [get_system_apply F hF fields buf, hmod, hdiv]

theorem get_set_system_roundtrip_witness :
    set_system 3 (get_system 3 exFields exBuf) 2 5 1 = exFields 2 5 1 :=
  get_set_system_roundtrip 3 2 (by norm_num) exFields exBuf 5 1

/-! ## Pencil enumeration (`PencilSet._construct_pencil_info`, `Pencil.__init__`)

The transverse indices are produced by repeated `divmod` against the reversed
transverse shape and then reversed back (row-major unraveling, fastest-varying
last).  Each pencil's slice list fixes `slice(i, i+1)` on every transverse
axis and `slice(None)` on the last axis. -/

/-- The `divmod` loop of `_construct_pencil_info`, run over the (already
reversed) transverse shape: collects `p % s` and continues with `p / s`. -/
def unravel_rev : List ℕ → ℕ → List ℕ
  | [], _ => []
  | s :: rest, p => (p % s) :: unravel_rev rest (p / s)

/-- Transverse index tuple of pencil `p` (the code reverses the collected
remainders back into axis order). -/
def pencil_index (trans_shape : List ℕ) (p : ℕ) : List ℕ :=
  (unravel_rev trans_shape.reverse p).reverse

/-- Row-major flattening, processed from the fastest-varying (last) axis:
`ravel_rev (s :: shape) (i :: idx) = i + s * ravel_rev shape idx`. -/
def ravel_rev : List ℕ → List ℕ → ℕ
  | s :: shape, i :: idx => i + s * ravel_rev shape idx
  | _, _ => 0

/-- Row-major flat index of an index tuple (fastest-varying last). -/
def ravel (trans_shape idx : List ℕ) : ℕ :=
  ravel_rev trans_shape.reverse idx.reverse

/-- The transverse slices of pencil `p`: `slice(i, i+1)` for each transverse
axis (the last axis gets the full-range `slice(None)`, which constrains
nothing and is left implicit). -/
def pencil_slices (trans_shape : List ℕ) (p : ℕ) : List (ℕ × ℕ) :=
  (pencil_index trans_shape p).map (fun i => (i, i + 1))

/-- A buffer position with transverse index tuple `t` lies in a pencil's data
view iff every transverse coordinate lies in the corresponding slice (the
last-axis column is unconstrained). -/
def in_pencil_view (sl : List (ℕ × ℕ)) (t : List ℕ) : Prop :=
  List.Forall₂ (fun s ti => s.1 ≤ ti ∧ ti < s.2) sl t

lemma ravel_unravel_rev :
    ∀ (shape : List ℕ) (p : ℕ), p < shape.prod →
      ravel_rev shape (unravel_rev shape p) = p := by
  intro shape
  induction shape with
  | nil => intro p hp; simp at hp; simp [unravel_rev, ravel_rev, hp]
  | cons s rest ih =>
    intro p hp
    have hs : 0 < s := by
      rcases Nat.eq_zero_or_pos s with h | h
      · subst h; simp at hp
      · exact h
    have hdiv : p / s < rest.prod := by
      rw [Nat.div_lt_iff_lt_mul hs]
      calc p < (s :: rest).prod := hp
        _ = rest.prod * s := by rw [List.prod_cons]; ring
    rw [unravel_rev, ravel_rev, ih _ hdiv, Nat.mod_add_div]

lemma ravel_pencil_index (shape : List ℕ) (p : ℕ) (hp : p < shape.prod) :
    ravel shape (pencil_index shape p) = p := by
  rw [ravel, pencil_index, List.reverse_reverse]
  exact ravel_unravel_rev _ _ (by rwa [List.prod_reverse])

lemma in_pencil_view_iff (idx t : List ℕ) :
    in_pencil_view (idx.map (fun i => (i, i + 1))) t ↔ t = idx := by
  induction idx generalizing t with
  | nil =>
    cases t with
    | nil => simp [in_pencil_view]
    | cons a l => simp [in_pencil_view]
  | cons i rest ih =>
    cases t with
    | nil => simp [in_pencil_view]
    | cons a l =>
      rw [List.map_cons]
      constructor
      · intro h
        rcases h with _ | ⟨⟨h1, h2⟩, htail⟩
        have : a = i := by omega
        subst this
        rw [(ih l).mp htail]
      · intro h
        rw [List.cons_eq_cons] at h
        obtain ⟨rfl, rfl⟩ := h
        exact List.Forall₂.cons ⟨le_rfl, by omega⟩ ((ih l).mpr rfl)

/-- C9: for two distinct pencils `p ≠ q` of the same transverse shape, the
pencil data views are disjoint: each slice fixes one index per transverse axis
(`slice(i, i+1)`), pencils enumerate transverse tuples by row-major unraveling
(fastest-varying last, so raveling the tuple returns the pencil number), the
tuples of distinct pencils differ, and no buffer position lies in both views. -/
theorem pencil_views_disjoint (shape : List ℕ) (p q : ℕ)
    (hp : p < shape.prod) (hq : q < shape.prod) (hpq : p ≠ q) :
    (∀ s ∈ pencil_slices shape p, s.2 = s.1 + 1) ∧
      ravel shape (pencil_index shape p) = p ∧
      pencil_index shape p ≠ pencil_index shape q ∧
      (∀ t : List ℕ, in_pencil_view (pencil_slices shape p) t →
        ¬ in_pencil_view (pencil_slices shape q) t) := by
  have hne : pencil_index shape p ≠ pencil_index shape q := by
    intro h
    apply hpq
    rw [← ravel_pencil_index shape p hp, ← ravel_pencil_index shape q hq, h]
  refine ⟨?_, ravel_pencil_index shape p hp, hne, ?_⟩
  · intro s hs
    rcases List.mem_map.mp hs with ⟨i, _, rfl⟩
    rfl
  · intro t hpt hqt
    rw [pencil_slices, in_pencil_view_iff] at hpt hqt
    exact hne (hpt ▸ hqt)

theorem pencil_views_disjoint_witness :
    ravel [2, 3] (pencil_index [2, 3] 1) = 1 ∧
      pencil_index [2, 3] 1 ≠ pencil_index [2, 3] 4 :=
  ⟨(pencil_views_disjoint [2, 3] 1 4 (by norm_num) (by norm_num)
      (by norm_num)).2.1,
    (pencil_views_disjoint [2, 3] 1 4 (by norm_num) (by norm_num)
      (by norm_num)).2.2.1⟩

/-! ## Field layout walk (`Field.require_layout`, core/field.py)

`require_layout` compares the field's current layout index with the target
index and repeatedly calls `towards_grid_space` (while smaller) or
`towards_coeff_space` (while larger).  Each transform path step moves the
layout index by exactly one (Modelled from the spec: the distributor's
`increment`/`decrement` path contract — adjacent layouts differ by one index —
is an external collaborator not under src/).  We record the walk as the list
of layout indices the field passes through after each transform step. -/

/-- Modelled from the spec: `towards_grid_space` moves to the next layout
(index + 1) via the forward transform path. -/
def towards_grid_space (i : ℕ) : ℕ := i + 1

/-- Modelled from the spec: `towards_coeff_space` moves to the previous layout
(index - 1) via the backward transform path. -/
def towards_coeff_space (i : ℕ) : ℕ := i - 1

/-- The `while self.layout.index < layout.index: self.towards_grid_space()`
loop: indices visited after each step. -/
def walk_up (c t : ℕ) : List ℕ :=
  if c < t then towards_grid_space c :: walk_up (towards_grid_space c) t else []
termination_by t - c
decreasing_by simp [towards_grid_space]; omega

/-- The `while self.layout.index > layout.index: self.towards_coeff_space()`
loop: indices visited after each step. -/
def walk_down (c t : ℕ) : List ℕ :=
  if t < c then towards_coeff_space c :: walk_down (towards_coeff_space c) t else []
termination_by c - t
decreasing_by simp [towards_coeff_space]; omega

/-- `Field.require_layout`: walk the layout index from `c` to `t`, one
transform step at a time; no steps when already there. -/
def require_layout (c t : ℕ) : List ℕ :=
  if c < t then walk_up c t
  else if t < c then walk_down c t
  else []

lemma walk_up_eq : ∀ (n c : ℕ), walk_up c (c + n) = List.range' (c + 1) n := by
  intro n
  induction n with
  | zero => intro c; rw [walk_up]; simp
  | succ k ih =>
    intro c
    rw [walk_up, if_pos (by omega)]
    show (c + 1) :: walk_up (c + 1) (c + (k + 1)) = _
    have : c + (k + 1) = (c + 1) + k := by omega
    rw [this, ih (c + 1), List.range'_succ]

lemma walk_down_eq : ∀ (n t : ℕ), walk_down (t + n) t = (List.range' t n).reverse := by
  intro n
  induction n with
  | zero => intro t; rw [walk_down]; simp
  | succ k ih =>
    intro t
    rw [walk_down, if_pos (by omega)]
    show (t + (k + 1) - 1) :: walk_down (t + (k + 1) - 1) t = _
    have h1 : t + (k + 1) - 1 = t + k := by omega
    rw [h1, ih t, List.range'_1_concat, List.reverse_append]
    simp

lemma chain_up (n : ℕ) :
    ∀ c, List.Chain' (fun a b => b = towards_grid_space a ∨ b = towards_coeff_space a)
      (c :: List.range' (c + 1) n) := by
  induction n with
  | zero => intro c; simp
  | succ k ih =>
    intro c
    rw [List.range'_succ]
    exact List.Chain'.cons (Or.inl rfl) (ih (c + 1))

lemma chain_down (n : ℕ) :
    ∀ t, List.Chain' (fun a b => b = towards_grid_space a ∨ b = towards_coeff_space a)
      ((t + n) :: (List.range' t n).reverse) := by
  induction n with
  | zero => intro t; simp
  | succ k ih =>
    intro t
    rw [List.range'_1_concat, List.reverse_append]
    simp only [List.reverse_cons, List.reverse_nil, List.nil_append,
      List.singleton_append]
    refine List.Chain'.cons (Or.inr ?_) ?_
    · simp [towards_coeff_space]
    · have := ih t
      have h : t + k + 1 - 1 = t + k := by omega
      simpa using this

/-- C8: `require_layout` walks the layout index strictly monotonically one
step at a time toward the target index — the trace is exactly the ascending
range `c+1, …, t` (via `towards_grid_space`) or the descending range
`c-1, …, t` (via `towards_coeff_space`), each step changing the index by
exactly one — and performs zero transform steps when the field is already
at the requested layout (so repeated calls are idempotent). -/
theorem require_layout_walk (c t : ℕ) :
    (c = t → require_layout c t = []) ∧
      (c < t → require_layout c t = List.range' (c + 1) (t - c)) ∧
      (t < c → require_layout c t = (List.range' t (c - t)).reverse) ∧
      List.Chain' (fun a b => b = towards_grid_space a ∨ b = towards_coeff_space a)
        (c :: require_layout c t) ∧
      (c ≠ t → (require_layout c t).getLast? = some t) := by
  rcases lt_trichotomy c t with h | h | h
  · have he : require_layout c t = List.range' (c + 1) (t - c) := by
      rw [require_layout, if_pos h]
      have : t = c + (t - c) := by omega
      rw [this, walk_up_eq]
      congr 1
      omega
    refine ⟨by omega, fun _ => he, by omega, ?_, fun _ => ?_⟩
    · rw [he]; exact chain_up (t - c) c
    · have h3 : t - c = (t - c - 1) + 1 := by omega
      rw [he, List.getLast?_eq_head?_reverse, h3, List.range'_1_concat,
        List.reverse_append]
      have h2 : c + 1 + (t - c - 1) = t := by omega
      simp [h2]
  · subst h
    refine ⟨fun _ => ?_, by omega, by omega, ?_, by omega⟩
    · rw [require_layout]; simp
    · rw [require_layout]; simp
  · have he : require_layout c t = (List.range' t (c - t)).reverse := by
      rw [require_layout, if_neg (by omega), if_pos h]
      have : c = t + (c - t) := by omega
      conv_lhs => rw [this]
      rw [walk_down_eq]
    refine ⟨by omega, by omega, fun _ => he, ?_, fun _ => ?_⟩
    · rw [he]
      have := chain_down (c - t) t
      have h2 : t + (c - t) = c := by omega
      rwa [h2] at this
    · rw [he, List.getLast?_eq_head?_reverse, List.reverse_reverse]
      cases hn : c - t with
      | zero => omega
      | succ k => simp [List.range'_succ]

theorem require_layout_walk_witness :
    require_layout 5 5 = [] ∧ require_layout 2 5 = [3, 4, 5] ∧
      require_layout 5 2 = [4, 3, 2] := by
  refine ⟨(require_layout_walk 5 5).1 rfl, ?_, ?_⟩
  · have h := (require_layout_walk 2 5).2.1 (by norm_num)
    rw [h]
    rfl
  · have h := (require_layout_walk 5 2).2.2.1 (by norm_num)
    rw [h]
    rfl

/-! ## Pencil matrix assembly (`Pencil.build_matrices`, data/pencil.py)

Sparse matrices are embedded as dense entry functions `ℕ → ℕ → α` over a
commutative ring of exact coefficients, together with explicit sizes.
`scipy.sparse.kron` of an `m×m` block matrix `A` with a `p×p` matrix `B` has
entry `(i, j) ↦ A (i/p) (j/p) * B (i%p) (j%p)`.  The trailing
`zeros_with_pattern`/`expand_pattern` step only pads sparsity patterns (it
changes no entry values), so it is the identity on the dense embedding and is
omitted. -/

/-- Matrix as a total entry function; sizes are carried separately. -/
abbrev Mat (α : Type) := ℕ → ℕ → α

variable {α : Type} [CommRing α] [DecidableEq α]

def matAdd (A B : Mat α) : Mat α := fun i j => A i j + B i j

/-- Product of two `n×n` matrices. -/
def matMul (n : ℕ) (A B : Mat α) : Mat α :=
  fun i j => ∑ k ∈ Finset.range n, A i k * B k j

/-- `scipy.sparse.kron` with right-factor block size `p`. -/
def kron (p : ℕ) (A B : Mat α) : Mat α :=
  fun i j => A (i / p) (j / p) * B (i % p) (j % p)

def zeroMat : Mat α := fun _ _ => 0

/-- `np.any(A)` on a `rows × cols` matrix: some entry is nonzero. -/
def anyNZ (rows cols : ℕ) (A : Mat α) : Bool :=
  decide (∃ i ∈ Finset.range rows, ∃ j ∈ Finset.range cols, A i j ≠ 0)

/-- `r ∈ A.nonzero()[0]` for a matrix with `cols` columns: row `r` holds a
nonzero entry. -/
def rowNZ (cols : ℕ) (A : Mat α) (r : ℕ) : Bool :=
  decide (∃ j ∈ Finset.range cols, A r j ≠ 0)

/-- Basis collaborator interface consumed by `build_matrices`: 1-D matrices of
size `coeff_size × coeff_size` (`Left`/`Right`/`Int` are the boundary-row
selectors). -/
structure BasisMats (α : Type) where
  coeff_size : ℕ
  Pre : Mat α
  Diff : Mat α
  Mult : ℕ → Mat α
  Left : Mat α
  Right : Mat α
  Int : Mat α

/-- Problem collaborator interface: per-order coefficient matrices and
boundary coefficient matrices of size `size × size`, each a function of the
pencil's transverse differentiation constants `d_trans` (type `δ`). -/
structure ProblemMats (α δ : Type) where
  size : ℕ
  order : ℕ
  M0 : ℕ → δ → Mat α
  M1 : ℕ → δ → Mat α
  L0 : ℕ → δ → Mat α
  L1 : ℕ → δ → Mat α
  ML : δ → Mat α
  MR : δ → Mat α
  MI : δ → Mat α
  LL : δ → Mat α
  LR : δ → Mat α
  LI : δ → Mat α

/-- The `clear_bc` matrix: the identity with the boundary-condition rows
(`bcRow`) zeroed out on the diagonal (`sparse.eye` followed by
`clear_bc[i, i] = 0.` for each boundary row). -/
def clear_bc (bcRow : ℕ → Bool) : Mat α :=
  fun i j => if i = j then (if bcRow i then 0 else 1) else 0

/-- The matrices `Pencil.build_matrices` stores (plus the boundary-row data it
derives along the way). -/
structure BuiltMats (α : Type) where
  M : Mat α
  L : Mat α
  Mb : Mat α
  Lb : Mat α
  bcRow : ℕ → Bool

/-- `Pencil.build_matrices`: accumulate the Kronecker-product PDE terms into
`M`/`L`, form the boundary matrices `Mb`/`Lb` from the basis boundary-row
selectors and the problem's boundary coefficient matrices, zero the union of
their nonzero rows out of `M`/`L` with the diagonal `clear_bc` matrix, and add
`Mb`/`Lb` back in. -/
def build_matrices {δ : Type} (basis : BasisMats α) (problem : ProblemMats α δ)
    (d_trans : δ) : BuiltMats α :=
  let cs := basis.coeff_size
  let ps := problem.size
  let size := ps * cs
  -- Pre_i = basis.Pre * basis.Mult(i); Diff_i = basis.Pre * basis.Mult(i) * basis.Diff
  let Pre_i := fun i => matMul cs basis.Pre (basis.Mult i)
  let Diff_i := fun i => matMul cs (matMul cs basis.Pre (basis.Mult i)) basis.Diff
  -- M += kron(Pre_i, M0[i](D)) + kron(Diff_i, M1[i](D)), likewise for L
  let M := (List.range problem.order).foldl
    (fun A i => matAdd (matAdd A (kron ps (Pre_i i) (problem.M0 i d_trans)))
      (kron ps (Diff_i i) (problem.M1 i d_trans))) zeroMat
  let L := (List.range problem.order).foldl
    (fun A i => matAdd (matAdd A (kron ps (Pre_i i) (problem.L0 i d_trans)))
      (kron ps (Diff_i i) (problem.L1 i d_trans))) zeroMat
  -- boundary condition matrices, each term added only if its coefficients are nonzero
  let ML := problem.ML d_trans
  let MR := problem.MR d_trans
  let MI := problem.MI d_trans
  let LL := problem.LL d_trans
  let LR := problem.LR d_trans
  let LI := problem.LI d_trans
  let Mb := zeroMat
  let Mb := if anyNZ ps ps ML then matAdd Mb (kron ps basis.Left ML) else Mb
  let Mb := if anyNZ ps ps MR then matAdd Mb (kron ps basis.Right MR) else Mb
  let Mb := if anyNZ ps ps MI then matAdd Mb (kron ps basis.Int MI) else Mb
  let Lb := zeroMat
  let Lb := if anyNZ ps ps LL then matAdd Lb (kron ps basis.Left LL) else Lb
  let Lb := if anyNZ ps ps LR then matAdd Lb (kron ps basis.Right LR) else Lb
  let Lb := if anyNZ ps ps LI then matAdd Lb (kron ps basis.Int LI) else Lb
  -- rows = set(Mb.nonzero()[0]) | set(Lb.nonzero()[0])
  let bcRow := fun r => rowNZ size Mb r || rowNZ size Lb r
  -- M = clear_bc * M + Mb; L = clear_bc * L + Lb
  { M := matAdd (matMul size (clear_bc bcRow) M) Mb
    L := matAdd (matMul size (clear_bc bcRow) L) Lb
    Mb := Mb
    Lb := Lb
    bcRow := bcRow }

omit [DecidableEq α] in
lemma clear_bc_mul_row (n : ℕ) (bc : ℕ → Bool) (A B : Mat α) (r j : ℕ)
    (hbc : bc r = true) :
    matAdd (matMul n (clear_bc bc) A) B r j = B r j := by
  have h0 : matMul n (clear_bc bc) A r j = 0 := by
    rw [matMul]
    apply Finset.sum_eq_zero
    intro k _
    by_cases h : r = k
    · subst h; rw [clear_bc, if_pos rfl, hbc]; simp
    · rw [clear_bc, if_neg h, zero_mul]
  rw [matAdd, h0, zero_add]

/-- C1: after `Pencil.build_matrices`, every row in the union of the nonzero
rows of the boundary matrices `Mb` and `Lb` is fully replaced: that row of the
stored `M` equals `Mb`'s row exactly, and that row of the stored `L` equals
`Lb`'s row exactly — the accumulated PDE Kronecker contribution to those rows
is entirely cleared before the boundary terms are added. -/
theorem boundary_rows_replace {δ : Type} (basis : BasisMats α)
    (problem : ProblemMats α δ) (d_trans : δ) (r : ℕ)
    (hbc : (build_matrices basis problem d_trans).bcRow r = true) :
    ∀ j, (build_matrices basis problem d_trans).M r j
          = (build_matrices basis problem d_trans).Mb r j ∧
         (build_matrices basis problem d_trans).L r j
          = (build_matrices basis problem d_trans).Lb r j := by
  intro j
  exact ⟨clear_bc_mul_row (problem.size * basis.coeff_size)
      ((build_matrices basis problem d_trans).bcRow) _ _ r j hbc,
    clear_bc_mul_row (problem.size * basis.coeff_size)
      ((build_matrices basis problem d_trans).bcRow) _ _ r j hbc⟩

/-- One-dimensional concrete instance (coefficient size 2, one problem field,
first order) used to witness the boundary-row replacement. -/
def exBasis : BasisMats ℤ where
  coeff_size := 2
  Pre := fun i j => if i = j then 1 else 0
  Diff := fun i j => if i + 1 = j then 1 else 0
  Mult := fun _ => fun i j => if i = j then 1 else 0
  Left := fun i j => if i = 0 ∧ j = 0 then 1 else 0
  Right := fun i j => if i = 0 ∧ j = 1 then 1 else 0
  Int := fun _ _ => 0

def exProblem : ProblemMats ℤ Unit where
  size := 1
  order := 1
  M0 := fun _ _ => fun _ _ => 2
  M1 := fun _ _ => fun _ _ => 3
  L0 := fun _ _ => fun _ _ => 5
  L1 := fun _ _ => fun _ _ => 7
  ML := fun _ => fun _ _ => 1
  MR := fun _ => fun _ _ => 0
  MI := fun _ => fun _ _ => 0
  LL := fun _ => fun _ _ => 0
  LR := fun _ => fun _ _ => 1
  LI := fun _ => fun _ _ => 0

theorem boundary_rows_replace_witness :
    (build_matrices exBasis exProblem ()).bcRow 0 = true ∧
      (build_matrices exBasis exProblem ()).M 0 1
        = (build_matrices exBasis exProblem ()).Mb 0 1 := by
  have hbc : (build_matrices exBasis exProblem ()).bcRow 0 = true := by decide
  exact ⟨hbc, (boundary_rows_replace exBasis exProblem () 0 hbc 1).1⟩

/-! ## Operator construction and dispatch (core/operators.py, core/field.py)

Operands are modelled by their structural data used at construction time: a
`Scalar` carries an optional name and a value (`Operand.raw_cast` wraps a raw
number as `Scalar(value=x)` with no name); a field carries an identifier and a
per-axis tuple of bases (`none` = constant along that axis).  Construction may
return a plain number, an existing operand unchanged, a fresh operator node,
or fail.  The `MultiClass` dispatch machinery itself is not under src/;
Modelled from the spec: construction dispatches to the variant whose
structural predicate (`_check_args`) matches and signals a parsing error if
no variant matches. -/

/-- Operand structural data seen by construction-time dispatch. -/
inductive POperand where
  | scalar (name : Option ℕ) (value : ℚ)
  | field (id : ℕ) (bases : List (Option ℕ))
deriving DecidableEq

/-- Operator node classes constructed in this model. -/
inductive NodeCls where
  | powNode
  | diffNode
deriving DecidableEq

/-- What a Python construction call returns: a plain number, an existing
operand (reference-identical), a freshly constructed operator node, or a
dispatch failure (no variant's `_check_args` matched). -/
inductive PResult where
  | num (q : ℚ)
  | operand (x : POperand)
  | node (cls : NodeCls) (args : List POperand)
  | dispatchError
deriving DecidableEq

/-- Per-axis bases of an operand (a `Scalar` has an empty domain, hence no
bases; every axis is constant). -/
def basesOf : POperand → List (Option ℕ)
  | .scalar _ _ => []
  | .field _ bases => bases

/-- `operand.get_basis(space)`: the operand's basis along the given axis
(`none` for a constant axis and for scalars). -/
def get_basis (x : POperand) (space : ℕ) : Option ℕ :=
  (basesOf x).getD space none

/-- `Power._check_args` (beyond the argument-type match): the exponent must be
constant along every axis — `all(b is None for b in args[1].bases)`. -/
def Power_check_args (arg1 : POperand) : Bool :=
  (basesOf arg1).all (fun b => b = none)

/-- `PowerFieldConstant.__new__`: exponent with no name and raw value `0`
returns the plain number `1`; with no name and raw value `1` returns the base
operand itself; otherwise a full operator node is allocated.  (A field-valued
exponent carries no scalar value, so neither test fires.) -/
def PowerFieldConstant_new (arg0 arg1 : POperand) : PResult :=
  match arg1 with
  | .scalar name v =>
      if name = none ∧ v = 0 then .num 1
      else if name = none ∧ v = 1 then .operand arg0
      else .node .powNode [arg0, .scalar name v]
  | .field i bs => .node .powNode [arg0, .field i bs]

/-- `Power(arg0, arg1)`: `PowerFieldConstant` is the only live variant; its
`_check_args` requires a structurally constant exponent, so a non-constant
exponent matches no variant and dispatch fails (Modelled from the spec: the
`MultiClass` resolver raises a parsing error when no variant matches). -/
def Power (arg0 arg1 : POperand) : PResult :=
  if Power_check_args arg1 then PowerFieldConstant_new arg0 arg1
  else .dispatchError

/-- `DifferentiateConstant._check_args`: numbers, and operands whose basis for
the differentiation space is `None`, dispatch to the constant variant. -/
def DifferentiateConstant_check (operand : POperand) (space : ℕ) : Bool :=
  get_basis operand space = none

/-- `Differentiate(operand, space)`: the constant variant short-circuits via
`DifferentiateConstant.__new__`, which returns the plain number `0`; otherwise
a basis-typed variant builds a full operator node (Modelled from the spec:
the basis-specific `Differentiate` subclasses are external collaborators). -/
def Differentiate (operand : POperand) (space : ℕ) : PResult :=
  if DifferentiateConstant_check operand space then .num 0
  else .node .diffNode [operand]

/-- `Scalar.__eq__` (dedalus2 core/field.py) compared against a raw number:
an unnamed scalar compares by value; a named scalar falls back to object
identity, which is false for a plain number. -/
def Scalar_eq_num (name : Option ℕ) (value : ℚ) (other : ℚ) : Bool :=
  if name = none then value = other else false

/-- C2: degenerate constant cases short-circuit at construction and never
return an operator node: differentiating an operand that is constant (basis
`None`) along the differentiation space constructs the literal `0`;
`Power(x, 0)` (exponent cast to the unnamed `Scalar` of value 0) constructs
the literal `1`; and `Power(x, 1)` returns the operand `x` itself. -/
theorem constant_construction_short_circuit (x c : POperand) (space : ℕ)
    (hconst : get_basis c space = none) :
    Differentiate c space = .num 0 ∧
      Power x (.scalar none 0) = .num 1 ∧
      Power x (.scalar none 1) = .operand x := by
  refine ⟨?_, rfl, rfl⟩
  rw [Differentiate, if_pos]
  rw [DifferentiateConstant_check, hconst]
  rfl

theorem constant_construction_short_circuit_witness :
    Differentiate (.field 7 [some 3, none]) 1 = .num 0 ∧
      Power (.field 7 [some 3, none]) (.scalar none 0) = .num 1 :=
  ⟨(constant_construction_short_circuit (.field 7 [some 3, none])
      (.field 7 [some 3, none]) 1 rfl).1,
    (constant_construction_short_circuit (.field 7 [some 3, none])
      (.field 7 [some 3, none]) 1 rfl).2.1⟩

/-- C6: constructing `Power` with an exponent that is non-constant along some
axis (some basis is not `None`) fails dispatch: no `Power` variant accepts it
and construction signals an error instead of building a node. -/
theorem power_variable_exponent_fails (x : POperand) (i : ℕ)
    (bs : List (Option ℕ)) (hvar : ∃ b ∈ bs, b ≠ none) :
    Power x (.field i bs) = .dispatchError := by
  rw [Power, if_neg]
  rw [Power_check_args]
  simp only [basesOf, List.all_eq_true, not_forall]
  obtain ⟨b, hb, hne⟩ := hvar
  exact ⟨b, hb, by simpa using hne⟩

theorem power_variable_exponent_fails_witness :
    Power (.field 0 [some 1]) (.field 1 [some 2, none]) = .dispatchError :=
  power_variable_exponent_fails (.field 0 [some 1]) 1 [some 2, none]
    ⟨some 2, by norm_num, by simp⟩

/-- C10: the `Power` construction-time simplification fires only for unnamed
scalar exponents: an unnamed `Scalar` exponent of value 0 (resp. 1) yields the
literal `1` (resp. the base itself), while a named `Scalar` exponent — even
with value 0 or 1 — constructs a full `PowerFieldConstant` node; accordingly
an unnamed `Scalar` compares equal to its raw numeric value while a named
`Scalar` does not. -/
theorem power_named_scalar_no_simplification (x : POperand) (n : ℕ) :
    Power x (.scalar (some n) 0) = .node .powNode [x, .scalar (some n) 0] ∧
      Power x (.scalar (some n) 1) = .node .powNode [x, .scalar (some n) 1] ∧
      Power x (.scalar none 0) = .num 1 ∧
      Power x (.scalar none 1) = .operand x ∧
      Scalar_eq_num none 0 0 = true ∧ Scalar_eq_num (some n) 0 0 = false := by
  refine ⟨?_, ?_, rfl, rfl, rfl, rfl⟩
  · show PowerFieldConstant_new x (.scalar (some n) 0) = _
    rw [PowerFieldConstant_new]
    simp
  · show PowerFieldConstant_new x (.scalar (some n) 1) = _
    rw [PowerFieldConstant_new]
    simp

/-! ## UnaryGridFunction symbolic differentiation (core/operators.py)

`UnaryGridFunction.supported` whitelists 22 numpy ufuncs;
`UnaryGridFunction.sym_diff` looks the function up in a fixed `diff_map` of
closed-form derivative rules and multiplies by the operand's derivative
(chain rule).  A missing `diff_map` key is a lookup failure (Python
`KeyError`), modelled by `Option`.  The float literals `np.log(2)` /
`np.log(10)` appearing in the rules are modelled by the tagged numeric
literal `lognum`. -/

/-- The 22 ufuncs of `UnaryGridFunction.supported`. -/
inductive UFunc where
  | absolute | sign | conj | exp | exp2 | log | log2 | log10 | sqrt | square
  | sin | cos | tan | arcsin | arccos | arctan
  | sinh | cosh | tanh | arcsinh | arccosh | arctanh
deriving DecidableEq

/-- `UnaryGridFunction.supported` as the list of its members. -/
def supported : List UFunc :=
  [.absolute, .sign, .conj, .exp, .exp2, .log, .log2, .log10, .sqrt, .square,
   .sin, .cos, .tan, .arcsin, .arccos, .arctan,
   .sinh, .cosh, .tanh, .arcsinh, .arccosh, .arctanh]

/-- Symbolic expressions produced by the derivative rules: atoms, rational
literals, the float literal `log(q)`, ufunc applications and arithmetic. -/
inductive UExpr where
  | atom (i : ℕ)
  | num (q : ℚ)
  | lognum (q : ℚ)
  | app (f : UFunc) (e : UExpr)
  | add (a b : UExpr)
  | sub (a b : UExpr)
  | mul (a b : UExpr)
  | neg (e : UExpr)
  | pow (a b : UExpr)
deriving DecidableEq

/-- The `diff_map` dictionary of `UnaryGridFunction.sym_diff`: closed-form
derivative rule per ufunc.  `np.conj` has no entry (`none`): it is in
`supported` but absent from the table. -/
def diff_map : UFunc → Option (UExpr → UExpr)
  | .absolute => some (fun x => .app .sign x)
  | .sign => some (fun _ => .num 0)
  | .conj => none
  | .exp => some (fun x => .app .exp x)
  | .exp2 => some (fun x => .mul (.app .exp2 x) (.lognum 2))
  | .log => some (fun x => .pow x (.num (-1)))
  | .log2 => some (fun x => .pow (.mul x (.lognum 2)) (.num (-1)))
  | .log10 => some (fun x => .pow (.mul x (.lognum 10)) (.num (-1)))
  | .sqrt => some (fun x => .mul (.num (1/2)) (.pow x (.num (-(1/2)))))
  | .square => some (fun x => .mul (.num 2) x)
  | .sin => some (fun x => .app .cos x)
  | .cos => some (fun x => .neg (.app .sin x))
  | .tan => some (fun x => .pow (.app .cos x) (.num (-2)))
  | .arcsin => some (fun x => .pow (.sub (.num 1) (.pow x (.num 2))) (.num (-(1/2))))
  | .arccos => some (fun x => .neg (.pow (.sub (.num 1) (.pow x (.num 2))) (.num (-(1/2)))))
  | .arctan => some (fun x => .pow (.add (.num 1) (.pow x (.num 2))) (.num (-1)))
  | .sinh => some (fun x => .app .cosh x)
  | .cosh => some (fun x => .app .sinh x)
  | .tanh => some (fun x => .pow (.app .cosh x) (.num (-2)))
  | .arcsinh => some (fun x => .pow (.add (.pow x (.num 2)) (.num 1)) (.num (-(1/2))))
  | .arccosh => some (fun x => .pow (.sub (.pow x (.num 2)) (.num 1)) (.num (-(1/2))))
  | .arctanh => some (fun x => .pow (.sub (.num 1) (.pow x (.num 2))) (.num (-1)))

/-- `UnaryGridFunction.sym_diff`: `diff_map[self.func](arg) * arg_diff`, where
`arg_diff` is the operand's symbolic derivative; fails (KeyError) when
`self.func` is missing from `diff_map`. -/
def sym_diff (f : UFunc) (arg arg_diff : UExpr) : Option UExpr :=
  match diff_map f with
  | none => none
  | some rule => some (.mul (rule arg) arg_diff)

/-- C5 counterexample: `np.conj` is in `UnaryGridFunction.supported`, but
`sym_diff` on it fails (no `diff_map` entry), so the derivative-rule table
does not cover every supported function. -/
theorem sym_diff_conj_counterexample :
    UFunc.conj ∈ supported ∧ sym_diff .conj (.atom 0) (.num 1) = none :=
  ⟨by decide, rfl⟩

/-- C5 (amended): for every supported function except `conj`,
`UnaryGridFunction.sym_diff` succeeds and returns the closed-form derivative
rule of the function applied to the operand, multiplied (chain rule) by the
operand's symbolic derivative; on `conj` the table lookup fails. -/
theorem sym_diff_supported (f : UFunc) (arg arg_diff : UExpr)
    (hf : f ∈ supported) (hconj : f ≠ .conj) :
    ∃ rule, diff_map f = some rule ∧
      sym_diff f arg arg_diff = some (.mul (rule arg) arg_diff) := by
  cases f
  case conj => exact absurd rfl hconj
  all_goals exact ⟨_, rfl, rfl⟩

theorem sym_diff_supported_witness :
    UFunc.sin ∈ supported ∧ UFunc.sin ≠ UFunc.conj ∧
      ∃ rule, diff_map .sin = some rule ∧
        sym_diff .sin (.atom 0) (.num 1) = some (.mul (rule (.atom 0)) (.num 1)) :=
  ⟨by decide, by decide,
    sym_diff_supported .sin (.atom 0) (.num 1) (by decide) (by decide)⟩

/-! ## Symbolic split (core/field.py `Data.split`, core/operators.py
`LinearOperator.split` / `NonlinearOperator.split` / `CastNumber.split`)

Expression trees are modelled with leaves (fields/scalars that can appear in
the variable set), plain-number nodes (the Python `0` returned for an empty
side, and `CastNumber`), linear-operator nodes (carrying their `base`), and
unary/binary nonlinear nodes (`UnaryGridFunction`, `Power`).  The variable
set `vars` may name both operands (`Va`, by leaf id) and operators (`Vb`, by
base id).  Modelled from the spec: `has` on an operator node checks whether
the subtree mentions any of the variables; `new_operand` re-dispatches
construction, so a number operand short-circuits through the operator's
constant variant, which acts on a number `q` as a fixed scalar multiple
`cact base * q` (src constant variants: `Differentiate`/`HilbertTransform`
give `0`, `Interpolate` gives `q`, `Integrate` gives `length * q`). -/

/-- Expression tree node. -/
inductive SExpr where
  | leaf (i : ℕ)
  | num (q : ℚ)
  | linop (base : ℕ) (arg : SExpr)
  | ugf (f : ℕ) (arg : SExpr)
  | nonlin (f : ℕ) (a b : SExpr)
deriving DecidableEq

/-- `x.has(*vars)`: the subtree mentions a leaf named in `Va` or a linear
operator base named in `Vb`. -/
def hasVars (Va Vb : Finset ℕ) : SExpr → Bool
  | .leaf i => decide (i ∈ Va)
  | .num _ => false
  | .linop b e => decide (b ∈ Vb) || hasVars Va Vb e
  | .ugf _ e => hasVars Va Vb e
  | .nonlin _ a b => hasVars Va Vb a || hasVars Va Vb b

/-- `LinearOperator.new_operand`: rebuild the operator on a new operand,
re-dispatching construction; a plain-number operand short-circuits through the
constant variant, acting as the scalar `cact b`. -/
def new_operand (cact : ℕ → ℚ) (b : ℕ) : SExpr → SExpr
  | .num q => .num (cact b * q)
  | .leaf i => .linop b (.leaf i)
  | .linop b' e => .linop b (.linop b' e)
  | .ugf f e => .linop b (.ugf f e)
  | .nonlin f x y => .linop b (.nonlin f x y)

/-- `split(*vars)`: leaves go wholly to one side by membership
(`Data.split`); `CastNumber.split` returns `(0, number)`; a linear operator
whose base is named goes wholly to the depends side, else it distributes over
its operand's split via `new_operand` (`LinearOperator.split`); a nonlinear
operator goes wholly to the side determined by `has` (`NonlinearOperator.split`). -/
def splitE (cact : ℕ → ℚ) (Va Vb : Finset ℕ) : SExpr → SExpr × SExpr
  | .leaf i => if i ∈ Va then (.leaf i, .num 0) else (.num 0, .leaf i)
  | .num q => (.num 0, .num q)
  | .linop b e =>
      if b ∈ Vb then (.linop b e, .num 0)
      else (new_operand cact b (splitE cact Va Vb e).1,
            new_operand cact b (splitE cact Va Vb e).2)
  | .ugf f e =>
      if hasVars Va Vb (.ugf f e) then (.ugf f e, .num 0)
      else (.num 0, .ugf f e)
  | .nonlin f a b =>
      if hasVars Va Vb (.nonlin f a b) then (.nonlin f a b, .num 0)
      else (.num 0, .nonlin f a b)

/-- Original expressions contain no plain-number nodes (numbers are
simplified away at construction; `num` only arises from `split` itself). -/
def numFree : SExpr → Bool
  | .leaf _ => true
  | .num _ => false
  | .linop _ e => numFree e
  | .ugf _ e => numFree e
  | .nonlin _ a b => numFree a && numFree b

/-- Interpretation of an expression: `fb` interprets linear-operator bases,
`fu` unary and `g` binary nonlinear nodes. -/
def evalE (env : ℕ → ℚ) (fb : ℕ → ℚ → ℚ) (fu : ℕ → ℚ → ℚ)
    (g : ℕ → ℚ → ℚ → ℚ) : SExpr → ℚ
  | .leaf i => env i
  | .num q => q
  | .linop b e => fb b (evalE env fb fu g e)
  | .ugf f e => fu f (evalE env fb fu g e)
  | .nonlin f a b => g f (evalE env fb fu g a) (evalE env fb fu g b)

lemma fb_zero (fb : ℕ → ℚ → ℚ)
    (hadd : ∀ b u v, fb b (u + v) = fb b u + fb b v) (b : ℕ) : fb b 0 = 0 := by
  have h := hadd b 0 0
  rw [add_zero] at h
  linarith

lemma new_operand_of_numFree (cact : ℕ → ℚ) (b : ℕ) (s : SExpr)
    (hs : numFree s = true) : new_operand cact b s = .linop b s := by
  cases s <;> simp_all [numFree, new_operand]

lemma eval_new_operand (cact : ℕ → ℚ) (b : ℕ) (env : ℕ → ℚ)
    (fb : ℕ → ℚ → ℚ) (fu : ℕ → ℚ → ℚ) (g : ℕ → ℚ → ℚ → ℚ)
    (hadd : ∀ b u v, fb b (u + v) = fb b u + fb b v) (s : SExpr)
    (hs : s = .num 0 ∨ numFree s = true) :
    evalE env fb fu g (new_operand cact b s) = fb b (evalE env fb fu g s) := by
  rcases hs with rfl | h
  · show evalE env fb fu g (.num (cact b * 0)) = fb b (evalE env fb fu g (.num 0))
    rw [evalE, evalE, mul_zero, fb_zero fb hadd b]
  · rw [new_operand_of_numFree cact b s h, evalE]

/-- Each side of a split of a `num`-free expression is either the literal
`num 0` or again `num`-free. -/
lemma split_sides (cact : ℕ → ℚ) (Va Vb : Finset ℕ) :
    ∀ x : SExpr, numFree x = true →
      ((splitE cact Va Vb x).1 = .num 0 ∨ numFree (splitE cact Va Vb x).1 = true) ∧
        ((splitE cact Va Vb x).2 = .num 0 ∨ numFree (splitE cact Va Vb x).2 = true) := by
  intro x
  induction x with
  | leaf i =>
    intro _
    by_cases h : i ∈ Va <;> simp [splitE, h, numFree]
  | num q => intro h; simp [numFree] at h
  | linop b e ih =>
    intro hwf
    have hwf' : numFree e = true := hwf
    by_cases hb : b ∈ Vb
    · simp [splitE, hb, numFree, hwf']
    · obtain ⟨h1, h2⟩ := ih hwf'
      simp only [splitE, if_neg hb]
      constructor
      · rcases h1 with h1 | h1
        · left; rw [h1]; show SExpr.num (cact b * 0) = .num 0; rw [mul_zero]
        · right; rw [new_operand_of_numFree cact b _ h1]; exact h1
      · rcases h2 with h2 | h2
        · left; rw [h2]; show SExpr.num (cact b * 0) = .num 0; rw [mul_zero]
        · right; rw [new_operand_of_numFree cact b _ h2]; exact h2
  | ugf f e ih =>
    intro hwf
    by_cases h : hasVars Va Vb (.ugf f e) = true <;>
      simp [splitE, h, numFree, hwf]
  | nonlin f a b iha ihb =>
    intro hwf
    by_cases h : hasVars Va Vb (.nonlin f a b) = true <;>
      simp_all [splitE, numFree]

lemma split_eval (cact : ℕ → ℚ) (Va Vb : Finset ℕ) (env : ℕ → ℚ)
    (fb : ℕ → ℚ → ℚ) (fu : ℕ → ℚ → ℚ) (g : ℕ → ℚ → ℚ → ℚ)
    (hadd : ∀ b u v, fb b (u + v) = fb b u + fb b v) :
    ∀ x : SExpr, numFree x = true →
      evalE env fb fu g (splitE cact Va Vb x).1
        + evalE env fb fu g (splitE cact Va Vb x).2 = evalE env fb fu g x := by
  intro x
  induction x with
  | leaf i =>
    intro _
    by_cases h : i ∈ Va <;> simp [splitE, h, evalE]
  | num q => intro h; simp [numFree] at h
  | linop b e ih =>
    intro hwf
    have hwf' : numFree e = true := hwf
    by_cases hb : b ∈ Vb
    · simp [splitE, hb, evalE]
    · obtain ⟨h1, h2⟩ := split_sides cact Va Vb e hwf'
      simp only [splitE, if_neg hb]
      rw [eval_new_operand cact b env fb fu g hadd _ h1,
        eval_new_operand cact b env fb fu g hadd _ h2,
        ← hadd b, ih hwf']
      rfl
  | ugf f e ih =>
    intro hwf
    by_cases h : hasVars Va Vb (.ugf f e) = true <;> simp [splitE, h, evalE]
  | nonlin f a b iha ihb =>
    intro hwf
    by_cases h : hasVars Va Vb (.nonlin f a b) = true <;> simp [splitE, h, evalE]

/-- The non-depending side of a split never mentions a variable of the set. -/
lemma split_b_indep (cact : ℕ → ℚ) (Va Vb : Finset ℕ) :
    ∀ x : SExpr, hasVars Va Vb (splitE cact Va Vb x).2 = false := by
  intro x
  induction x with
  | leaf i =>
    by_cases h : i ∈ Va <;> simp [splitE, h, hasVars]
  | num q => simp [splitE, hasVars]
  | linop b e ih =>
    by_cases hb : b ∈ Vb
    · simp [splitE, hb, hasVars]
    · simp only [splitE, if_neg hb]
      cases hsplit : (splitE cact Va Vb e).2 with
      | num q => simp [new_operand, hasVars]
      | leaf i => rw [hsplit] at ih; simp_all [new_operand, hasVars, hb]
      | linop b' e' => rw [hsplit] at ih; simp_all [new_operand, hasVars, hb]
      | ugf f' e' => rw [hsplit] at ih; simp_all [new_operand, hasVars, hb]
      | nonlin f' x' y' => rw [hsplit] at ih; simp_all [new_operand, hasVars, hb]
  | ugf f e ih =>
    by_cases h : hasVars Va Vb (.ugf f e) = true <;> simp_all [splitE, hasVars]
  | nonlin f a b iha ihb =>
    by_cases h : hasVars Va Vb (.nonlin f a b) = true <;>
      simp_all [splitE, hasVars]

/-- The depending side of a split is either literally zero or mentions some
variable of the set. -/
lemma split_a_dep (cact : ℕ → ℚ) (Va Vb : Finset ℕ) :
    ∀ x : SExpr, (splitE cact Va Vb x).1 = .num 0 ∨
      hasVars Va Vb (splitE cact Va Vb x).1 = true := by
  intro x
  induction x with
  | leaf i =>
    by_cases h : i ∈ Va <;> simp [splitE, h, hasVars]
  | num q => simp [splitE]
  | linop b e ih =>
    by_cases hb : b ∈ Vb
    · right; simp [splitE, hb, hasVars]
    · simp only [splitE, if_neg hb]
      rcases ih with h1 | h1
      · left; rw [h1]; show SExpr.num (cact b * 0) = .num 0; rw [mul_zero]
      · right
        have hne : ∀ q, (splitE cact Va Vb e).1 ≠ .num q := by
          intro q hq
          rw [hq] at h1
          simp [hasVars] at h1
        cases hsplit : (splitE cact Va Vb e).1 with
        | num q => exact absurd hsplit (hne q)
        | leaf i => rw [hsplit] at h1; simp_all [new_operand, hasVars]
        | linop b' e' => rw [hsplit] at h1; simp_all [new_operand, hasVars]
        | ugf f' e' => rw [hsplit] at h1; simp_all [new_operand, hasVars]
        | nonlin f' x' y' => rw [hsplit] at h1; simp_all [new_operand, hasVars]
  | ugf f e ih =>
    by_cases h : hasVars Va Vb (.ugf f e) = true <;> simp_all [splitE]
  | nonlin f a b iha ihb =>
    by_cases h : hasVars Va Vb (.nonlin f a b) = true <;> simp_all [splitE]

/-- C3 counterexample: splitting the nonlinear node `N(x0, x1)` over the
variable set `{x0}` puts the whole node on the depends side, which therefore
also depends on the variable `x1` outside the set — refuting "`a` depends
only on variables in `V`". -/
theorem split_depends_only_counterexample :
    (splitE (fun _ => 0) {0} ∅ (.nonlin 0 (.leaf 0) (.leaf 1))).1
        = .nonlin 0 (.leaf 0) (.leaf 1) ∧
      hasVars {1} ∅
        (splitE (fun _ => 0) {0} ∅ (.nonlin 0 (.leaf 0) (.leaf 1))).1 = true ∧
      (1 : ℕ) ∉ ({0} : Finset ℕ) := by
  decide

/-- C3 (amended): for every `num`-free operand `x` and variable sets
`(Va, Vb)`, `split` returns `(a, b)` with: `a + b` symbolically equal to `x`
(equal under every interpretation making the linear-operator bases additive),
`b` independent of every variable in the set, and `a` either zero or
depending on some variable in the set (`a` may also mention variables outside
the set when a nonlinear node mixes them); moreover a leaf lands wholly in
`a` or `b` by membership, a linear operator whose base is named goes wholly
to `a` (otherwise it distributes over its operand's split), and a nonlinear
operator goes wholly to `a` exactly when its subtree mentions a variable. -/
theorem split_correct (cact : ℕ → ℚ) (Va Vb : Finset ℕ) (x : SExpr)
    (hwf : numFree x = true) :
    (∀ env fb fu g, (∀ b u v, fb b (u + v) = fb b u + fb b v) →
        evalE env fb fu g (splitE cact Va Vb x).1
          + evalE env fb fu g (splitE cact Va Vb x).2 = evalE env fb fu g x) ∧
      hasVars Va Vb (splitE cact Va Vb x).2 = false ∧
      ((splitE cact Va Vb x).1 = .num 0 ∨
        hasVars Va Vb (splitE cact Va Vb x).1 = true) ∧
      (∀ i, (i ∈ Va → splitE cact Va Vb (.leaf i) = (.leaf i, .num 0)) ∧
        (i ∉ Va → splitE cact Va Vb (.leaf i) = (.num 0, .leaf i))) ∧
      (∀ b e, b ∈ Vb → splitE cact Va Vb (.linop b e) = (.linop b e, .num 0)) ∧
      (∀ f a b, (hasVars Va Vb (.nonlin f a b) = true →
          splitE cact Va Vb (.nonlin f a b) = (.nonlin f a b, .num 0)) ∧
        (hasVars Va Vb (.nonlin f a b) = false →
          splitE cact Va Vb (.nonlin f a b) = (.num 0, .nonlin f a b))) := by
  refine ⟨fun env fb fu g hadd => split_eval cact Va Vb env fb fu g hadd x hwf,
    split_b_indep cact Va Vb x, split_a_dep cact Va Vb x, ?_, ?_, ?_⟩
  · intro i
    constructor <;> intro h <;> simp [splitE, h]
  · intro b e h
    simp [splitE, h]
  · intro f a b
    constructor <;> intro h <;> simp [splitE, h]

theorem split_correct_witness :
    evalE (fun _ => 2) (fun _ q => q) (fun _ q => q) (fun _ u v => u * v)
        (splitE (fun _ => 1) {0} ∅ (.linop 3 (.leaf 0))).1
      + evalE (fun _ => 2) (fun _ q => q) (fun _ q => q) (fun _ u v => u * v)
        (splitE (fun _ => 1) {0} ∅ (.linop 3 (.leaf 0))).2
      = evalE (fun _ => 2) (fun _ q => q) (fun _ q => q) (fun _ u v => u * v)
        (.linop 3 (.leaf 0)) ∧
      hasVars {0} ∅ (splitE (fun _ => 1) {0} ∅ (.linop 3 (.leaf 0))).2 = false := by
  have h := split_correct (fun _ => 1) {0} ∅ (.linop 3 (.leaf 0)) (by decide)
  exact ⟨h.1 (fun _ => 2) (fun _ q => q) (fun _ q => q) (fun _ u v => u * v)
      (fun _ _ _ => rfl), h.2.1⟩

end Dedalus
